import Mathlib

/-!
Shallow embedding of the GroopM data layer (groopm/mstore.py): the k-mer
signature engine (`KmerSigEngine`), the contig parser, the BAM coverage
aggregator, and the `GMDataManager` table operations, together with proofs
of the documented invariants.

Sequences are lists of characters, tables are lists of rows, and the
Python dictionaries are association lists with overwrite-on-insert
semantics.  Operations that can raise in Python (the division by zero in
`getKSig` on an empty sequence) return `Option`.
-/

namespace GroopM

abbrev Kmer := List Char

/-- The nucleotide alphabet, in the order the source enumerates it. -/
def baseChars : List Char := ['A', 'C', 'G', 'T']

/-- The complement map built by `string.maketrans('ACGT', 'TGCA')`:
characters outside ACGT are left unchanged. -/
def complChar (c : Char) : Char :=
  if c = 'A' then 'T'
  else if c = 'C' then 'G'
  else if c = 'G' then 'C'
  else if c = 'T' then 'A'
  else c

/-- Model of `KmerSigEngine.revComp`: translate through the complement map, then
reverse. -/
def revComp (seq : Kmer) : Kmer := (seq.map complChar).reverse

/-- Python byte-string comparison `seq < rseq`: lexicographic, a strict
prefix is smaller. -/
def seqLt : Kmer → Kmer → Bool
  | _, [] => false
  | [], _ :: _ => true
  | a :: as, b :: bs => if a < b then true else if b < a then false else seqLt as bs

/-- Model of `KmerSigEngine.shiftLowLexi`: the lexicographically lowest of a
sequence and its reverse complement. -/
def shiftLowLexi (seq : Kmer) : Kmer :=
  if seqLt seq (revComp seq) then seq else revComp seq

/-- The `out_list` loop of `KmerSigEngine.makeKmerColNames` after `n`
iterations: starts from the four single-letter strings and appends one
base per iteration, preserving lexicographic enumeration order. -/
def outList : Nat → List Kmer
  | 0 => baseChars.map (fun c => [c])
  | n + 1 => (outList n).flatMap (fun mer => baseChars.map (fun c => mer ++ [c]))

/-- One step of the `if lmer not in ret_list: ret_list.append(lmer)`
deduplication loop. -/
def addIfAbsent (acc : List Kmer) (x : Kmer) : List Kmer :=
  if x ∈ acc then acc else acc ++ [x]

/-- Model of `KmerSigEngine.makeKmerColNames`: canonicalise all `4^k` kmers and
deduplicate keeping first occurrences.  (`kLen - 1` iterations of the
growing loop, matching `range(1, kLen)`; truncated subtraction matches the
empty Python range when `kLen = 0`.) -/
def makeKmerColNames (kLen : Nat) : List Kmer :=
  ((outList (kLen - 1)).map shiftLowLexi).foldl addIfAbsent []

/-- Number of sliding windows, `len(seq) - k + 1` clamped at zero exactly
as the empty Python `range(0, ll-k+1)` is. -/
def numWindows (kLen ll : Nat) : Nat := ll + 1 - kLen

/-- The window `seq[i : i+kLen]`. -/
def windowAt (kLen : Nat) (seq : List Char) (i : Nat) : Kmer :=
  (seq.drop i).take kLen

/-- All sliding windows of `getKSig`'s loop, in loop order. -/
def windows (kLen : Nat) (seq : List Char) : List Kmer :=
  (List.range (numWindows kLen seq.length)).map (windowAt kLen seq)

/-- Final value of the accumulator `sig[mer]` in `getKSig`: the number of
windows whose canonical form is `mer` (windows whose canonical form is not
a column are skipped by the `if this_mer in sig` guard). -/
def merCount (kLen : Nat) (seq : List Char) (mer : Kmer) : Nat :=
  (windows kLen seq).countP (fun w => decide (shiftLowLexi w = mer))

abbrev Sig := List (Kmer × ℚ)

/-- Model of `KmerSigEngine.getKSig`.  The final normalisation `X / ll` divides by
`len(seq)`; on the empty sequence this is a Python `ZeroDivisionError`,
modelled as `none`.  The result associates each canonical column with its
normalised count, in `kmerCols` order.  (The source's final
`dict(zip(kmerCols, sig.values()))` re-pairs columns with values in
Python 2's unspecified dict iteration order; only the multiset of values
is guaranteed, and nothing proved below depends on the pairing.) -/
def getKSig (kLen : Nat) (seq : List Char) : Option Sig :=
  if seq.length = 0 then none
  else
    some ((makeKmerColNames kLen).map
      (fun mer => (mer, (merCount kLen seq mer : ℚ) / (seq.length : ℚ))))

/-- Sum of the entries of a signature. -/
def sigSum (s : Option Sig) : Option ℚ :=
  s.map (fun l => (l.map Prod.snd).sum)

/-- Boolean list membership for kmers, fixed once so that every statement
about the `if this_mer in sig` guard uses the same decision procedure. -/
def memB (x : Kmer) (L : List Kmer) : Bool := decide (x ∈ L)

/-- The `if this_mer in sig` guard of `getKSig`: does the canonical form
of a window occur among the canonical columns? -/
def canonIsCol (kLen : Nat) (w : Kmer) : Bool :=
  memB (shiftLowLexi w) (makeKmerColNames kLen)

/-- Python `str.upper` over the ASCII range. -/
def pyUpper (seq : List Char) : List Char := seq.map Char.toUpper

/-! ### Python dictionaries

Association lists with Python `dict` semantics: inserting an existing key
overwrites its value in place, a new key is appended. -/

def dictInsert {α : Type} (d : List (String × α)) (k : String) (v : α) :
    List (String × α) :=
  if d.any (fun p => decide (p.1 = k)) then
    d.map (fun p => if p.1 = k then (k, v) else p)
  else d ++ [(k, v)]

def dictKeys {α : Type} (d : List (String × α)) : List String := d.map Prod.fst

def dictFind {α : Type} (d : List (String × α)) (k : String) : Option α :=
  (d.find? (fun p => decide (p.1 = k))).map Prod.snd

/-- Model of `dict(zip(keys, values))`: left-to-right insertion, last value wins. -/
def pyDictOfPairs {α : Type} (ps : List (String × α)) : List (String × α) :=
  ps.foldl (fun d p => dictInsert d p.1 p.2) []

/-- Model of `sorted(d.keys())`. -/
def sortedKeys {α : Type} (d : List (String × α)) : List String :=
  List.insertionSort (fun a b => a ≤ b) (dictKeys d)

/-! ### Table rows and the database -/

/-- A row of `/meta/contigs` (legacy schema: `cid, bid, length, core`). -/
structure ContigRow where
  cid : String
  bid : Int
  length : Nat
  core : Bool
deriving DecidableEq

instance : Inhabited ContigRow := ⟨⟨"", 0, 0, false⟩⟩

/-- A row of `/meta/bins`. -/
structure BinRow where
  bid : Int
  numMembers : Int
deriving DecidableEq

/-- The single `/meta/meta` row. -/
structure MetaRow where
  stoitColNames : String
  numStoits : Nat
  merColNames : String
  merSize : Nat
  numMers : Nat
  numCons : Nat
  numBins : Nat
  clustered : Bool
  complete : Bool
deriving DecidableEq

/-- The database.  `kms` and `coverage` rows carry the contig id the row
was written for (the loop variable at write time); on disk only the float
columns are stored, the tag records provenance for the row-alignment
statements. -/
structure DB where
  kms : List (String × List ℚ)
  contigs : List ContigRow
  bins : List BinRow
  coverage : List (String × List ℚ)
  meta : MetaRow
deriving DecidableEq

/-- Model of `GMDataManager.initContigs`: one row per contig name, sorted
ascending, `bid` defaulted to 0 and `core` to False. -/
def initContigs (contigNames : List (String × Nat)) : List ContigRow :=
  (sortedKeys contigNames).map
    (fun cid =>
      { cid := cid, bid := 0, length := (dictFind contigNames cid).getD 0,
        core := false })

/-- The `tmp_storage` loop of `ContigParser.parse`: each record's
signature (of the upper-cased sequence) and length are stored under its
name, duplicates overwriting; a failing `getKSig` aborts the parse. -/
def parseContigsAux (kLen : Nat) (store : List (String × (List ℚ × Nat))) :
    List (String × List Char) → Option (List (String × (List ℚ × Nat)))
  | [] => some store
  | r :: rs =>
    match getKSig kLen (pyUpper r.2) with
    | none => none
    | some sig => parseContigsAux kLen (dictInsert store r.1 (sig.map Prod.snd, r.2.length)) rs

/-- The dict `con_names`, built by the second loop of `ContigParser.parse` over the
sorted keys of `tmp_storage`. -/
def conNamesOf (tmp : List (String × (List ℚ × Nat))) : List (String × Nat) :=
  (sortedKeys tmp).map (fun cid => (cid, ((dictFind tmp cid).getD ([], 0)).2))

/-- The `kms` table rows written by `ContigParser.parse`, tagged with the
contig each row was punched in for. -/
def kmsTableOf (tmp : List (String × (List ℚ × Nat))) : List (String × List ℚ) :=
  (sortedKeys tmp).map (fun cid => (cid, ((dictFind tmp cid).getD ([], 0)).1))

/-! ### BAM coverage -/

/-- One reference of an open BAM: header name, header length, and the
number of reads `pysam.fetch` counts on `[0, length)`. -/
structure BamRef where
  ref : String
  length : Nat
  reads : Nat
deriving DecidableEq

instance : Inhabited BamRef := ⟨⟨"", 0, 0⟩⟩

/-- An open BAM file: its column name (basename minus extension) and its
references. -/
structure BamFile where
  desc : String
  refs : List BamRef
deriving DecidableEq

instance : Inhabited BamFile := ⟨⟨"", []⟩⟩

/-- The `tmp_storage` dict of arrays of `BamParser.parse`, zero
initialised, as a function from contig name and column index. -/
def zeroStorage : String → Nat → ℚ := fun _ _ => 0

def updStorage (s : String → Nat → ℚ) (r : String) (j : Nat) (v : ℚ) :
    String → Nat → ℚ :=
  fun c i => if c = r ∧ i = j then v else s c i

/-- Boolean membership in the contig-name set, fixed once (the
`if reference in contigNames` guard of `parseBam`). -/
def memBS (x : String) (L : List String) : Bool := decide (x ∈ L)

/-- Model of `BamParser.parseBam`: for every reference present in the contig set,
store `reads / length` in this BAM's column; other references are
ignored. -/
def parseBam (s : String → Nat → ℚ) (refs : List BamRef) (bamCount : Nat)
    (contigKeys : List String) : String → Nat → ℚ :=
  refs.foldl
    (fun s e =>
      if memBS e.ref contigKeys then
        updStorage s e.ref bamCount ((e.reads : ℚ) / (e.length : ℚ))
      else s) s

/-- The `bam_count` loop of `BamParser.parse`. -/
def bamFoldAux (contigKeys : List String) (s : String → Nat → ℚ) (bamCount : Nat) :
    List BamFile → (String → Nat → ℚ)
  | [] => s
  | bf :: rest => bamFoldAux contigKeys (parseBam s bf.refs bamCount contigKeys) (bamCount + 1) rest

/-- Model of `BamParser.parse`: aggregate all BAMs, then write one coverage row per
contig, sorted by name, tagged with the contig each row was written
for. -/
def bamParse (bams : List BamFile) (contigNames : List (String × Nat)) :
    List (String × List ℚ) :=
  let s := bamFoldAux (dictKeys contigNames) zeroStorage 0 bams
  (List.insertionSort (fun a b => a ≤ b) (dictKeys contigNames)).map
    (fun cid => (cid, (List.range bams.length).map (fun j => s cid j)))

/-! ### Metadata and database creation -/

/-- Python `str.join(',', l)`. -/
def joinComma : List String → String
  | [] => ""
  | [s] => s
  | s :: x :: xs => s ++ "," ++ joinComma (x :: xs)

def countCommas (s : String) : Nat := s.data.countP (fun c => decide (c = ','))

/-- Model of `GMDataManager.initMeta` together with the column defaults of the
`meta` table description (`numBins = 0`, both flags False). -/
def initMeta (stoitColNames : String) (numStoits : Nat) (merColNames : String)
    (merSize numMers numCons : Nat) : MetaRow :=
  { stoitColNames := stoitColNames, numStoits := numStoits,
    merColNames := merColNames, merSize := merSize, numMers := numMers,
    numCons := numCons, numBins := 0, clustered := false, complete := false }

/-- Model of `GMDataManager.createDB` on already-opened inputs: the record stream
produced by `readfq` and the opened BAM files.  Fails (propagating the
exception) when any record's signature computation fails. -/
def createDB (kmerSize : Nat) (bamFiles : List BamFile)
    (recs : List (String × List Char)) : Option DB :=
  (parseContigsAux kmerSize [] recs).map (fun tmp =>
    let con_names := conNamesOf tmp
    let stoitCols := bamFiles.map (fun bf => bf.desc)
    { kms := kmsTableOf tmp
      contigs := initContigs con_names
      bins := []
      coverage := bamParse bamFiles con_names
      meta := initMeta (joinComma stoitCols) stoitCols.length
        (joinComma ((makeKmerColNames kmerSize).map (fun m => String.mk m)))
        kmerSize (makeKmerColNames kmerSize).length con_names.length })

/-! ### Table operations -/

/-- Model of `GMDataManager.setBins`: for each `row_num ↦ bid` rebuild that row
with the new `bid`, all other fields copied from the current row. -/
def setBins (rows : List ContigRow) (updates : List (Nat × Int)) : List ContigRow :=
  updates.foldl
    (fun tbl u => tbl.set u.1 { tbl.getD u.1 default with bid := u.2 }) rows

/-- Model of `GMDataManager.getBins` with an explicit index vector. -/
def getBins (rows : List ContigRow) (indicies : List Nat) : List Int :=
  indicies.map (fun i => (rows.getD i default).bid)

/-- Model of `GMDataManager.nukeBins`: read `(cid, length)` of every row matching
`cid != ''` into a dict, replace `bins` by a fresh empty table and
`contigs` by `initContigs` of that dict.  The `meta` table is not
touched. -/
def nukeBins (db : DB) : DB :=
  let contig_names :=
    pyDictOfPairs
      ((db.contigs.filter (fun r => decide (r.cid ≠ ""))).map (fun r => (r.cid, r.length)))
  { db with bins := [], contigs := initContigs contig_names }

/-- The contig-table predicates relevant to the conditional query
interface. -/
inductive ContigPred where
  | empty : ContigPred
  | cidNe : String → ContigPred
deriving DecidableEq

/-- Row filter semantics.  The empty predicate is substituted before it is
ever evaluated ("no condition breaks everything" in the source). -/
def evalPred : ContigPred → ContigRow → Bool
  | ContigPred.cidNe s, r => decide (r.cid ≠ s)
  | ContigPred.empty, _ => false

/-- Model of `GMDataManager.getConditionalIndicies`: substitute `cid != ''` for the
empty condition, then return `x.nrow` of every matching row. -/
def getConditionalIndicies (rows : List ContigRow) (condition : ContigPred) :
    List Nat :=
  let cond := if condition = ContigPred.empty then ContigPred.cidNe "" else condition
  (rows.enum.filter (fun p => evalPred cond p.2)).map Prod.fst

/-! ### Concrete instances used by the witnesses and counterexamples -/

/-- The canonical 2-mer columns, spelt out. -/
def cols2 : List Kmer :=
  [['A','A'], ['A','C'], ['A','G'], ['A','T'], ['C','A'],
   ['C','C'], ['C','G'], ['G','A'], ['G','C'], ['T','A']]

def merStr2 : String := "AA,AC,AG,AT,CA,CC,CG,GA,GC,TA"

/-- Metadata of a database built with `k = 2`, no BAMs and `n` contigs. -/
def exMeta2 (n : Nat) : MetaRow :=
  { stoitColNames := "", numStoits := 0, merColNames := merStr2, merSize := 2,
    numMers := 10, numCons := n, numBins := 0, clustered := false, complete := false }

/-- The database `createDB 2 [] []` produces from an empty FASTA. -/
def exDB0 : DB :=
  { kms := [], contigs := [], bins := [], coverage := [], meta := exMeta2 0 }

/-- The database `createDB 2 []` produces from the FASTA
`{c2 : AA, c1 : AC}`. -/
def exDB2 : DB :=
  { kms := [("c1", [0, 1/2, 0, 0, 0, 0, 0, 0, 0, 0]),
            ("c2", [1/2, 0, 0, 0, 0, 0, 0, 0, 0, 0])]
    contigs := [⟨"c1", 0, 2, false⟩, ⟨"c2", 0, 2, false⟩]
    bins := []
    coverage := [("c1", []), ("c2", [])]
    meta := exMeta2 2 }

/-- The database `createDB 2 [⟨a, no refs⟩] []` produces: one BAM, empty
FASTA. -/
def exDB4 : DB :=
  { kms := [], contigs := [], bins := [], coverage := [],
    meta := { stoitColNames := "a", numStoits := 1, merColNames := merStr2,
              merSize := 2, numMers := 10, numCons := 0, numBins := 0,
              clustered := false, complete := false } }

/-- One open BAM with a reference matching the contig set (zero reads)
and one foreign reference. -/
def exBams : List BamFile := [⟨"a", [⟨"c1", 4, 0⟩, ⟨"zz", 5, 7⟩]⟩]

/-- The contig-name dict matching `exBams`. -/
def exCon : List (String × Nat) := [("c1", 4)]

/-- A database holding one binned contig, used to exercise `nukeBins`. -/
def exDB3 : DB :=
  { kms := [], contigs := [⟨"a", 1, 5, false⟩], bins := [⟨1, 1⟩], coverage := [],
    meta := { stoitColNames := "", numStoits := 0, merColNames := "", merSize := 4,
              numMers := 0, numCons := 1, numBins := 1, clustered := false,
              complete := false } }

/-! ## Lemmas about the deduplication fold -/

theorem mem_foldl_addIfAbsent (l : List Kmer) :
    ∀ (acc : List Kmer) (x : Kmer), x ∈ l.foldl addIfAbsent acc ↔ x ∈ acc ∨ x ∈ l := by
  induction l with
  | nil => intro acc x; simp
  | cons y l ih =>
    intro acc x
    rw [List.foldl_cons, ih]
    unfold addIfAbsent
    by_cases hy : y ∈ acc
    · rw [if_pos hy]
      simp only [List.mem_cons]
      constructor
      · rintro (h | h)
        · exact Or.inl h
        · exact Or.inr (Or.inr h)
      · rintro (h | rfl | h)
        · exact Or.inl h
        · exact Or.inl hy
        · exact Or.inr h
    · rw [if_neg hy]
      simp only [List.mem_append, List.mem_singleton, List.mem_cons]
      tauto

theorem nodup_foldl_addIfAbsent (l : List Kmer) :
    ∀ acc : List Kmer, acc.Nodup → (l.foldl addIfAbsent acc).Nodup := by
  induction l with
  | nil => intro acc h; simpa using h
  | cons y l ih =>
    intro acc h
    rw [List.foldl_cons]
    apply ih
    unfold addIfAbsent
    by_cases hy : y ∈ acc
    · rwa [if_pos hy]
    · rw [if_neg hy]
      refine List.Nodup.append h (List.nodup_singleton y) ?_
      intro a ha hb
      rw [List.mem_singleton] at hb
      subst hb
      exact hy ha

theorem nodup_makeKmerColNames (k : Nat) : (makeKmerColNames k).Nodup :=
  nodup_foldl_addIfAbsent _ _ List.nodup_nil

/-! ## Membership of the kmer enumeration -/

theorem mem_outList : ∀ (n : Nat) (w : Kmer), w.length = n + 1 →
    (∀ c ∈ w, c ∈ baseChars) → w ∈ outList n := by
  intro n
  induction n with
  | zero =>
    intro w hw hc
    match w, hw with
    | [c], _ =>
      simp only [outList]
      exact List.mem_map.mpr ⟨c, hc c (by simp), rfl⟩
  | succ n ih =>
    intro w hw hc
    rcases List.eq_nil_or_concat w with rfl | ⟨L, b, rfl⟩
    · simp at hw
    · rw [List.concat_eq_append] at hc ⊢
      simp only [outList]
      apply List.mem_flatMap.mpr
      refine ⟨L, ih L ?_ ?_, ?_⟩
      · have := hw
        rw [List.concat_eq_append, List.length_append] at this
        simpa using this
      · intro c hcL
        exact hc c (List.mem_append_left _ hcL)
      · exact List.mem_map.mpr ⟨b, hc b (List.mem_append_right _ (by simp)), rfl⟩

theorem shiftLowLexi_mem_makeKmerColNames (k : Nat) (hk : 1 ≤ k) (w : Kmer)
    (hw : w.length = k) (hc : ∀ c ∈ w, c ∈ baseChars) :
    shiftLowLexi w ∈ makeKmerColNames k := by
  have hw' : w.length = (k - 1) + 1 := by omega
  have hmem : w ∈ outList (k - 1) := mem_outList _ w hw' hc
  unfold makeKmerColNames
  exact (mem_foldl_addIfAbsent _ _ _).mpr (Or.inr (List.mem_map.mpr ⟨w, hmem, rfl⟩))

/-! ## Window properties -/

theorem length_windowAt (k : Nat) (seq : List Char) (i : Nat)
    (hi : i < numWindows k seq.length) : (windowAt k seq i).length = k := by
  unfold windowAt
  unfold numWindows at hi
  rw [List.length_take, List.length_drop]
  omega

theorem mem_of_mem_windowAt (k : Nat) (seq : List Char) (i : Nat) :
    ∀ c ∈ windowAt k seq i, c ∈ seq := by
  intro c hc
  exact List.mem_of_mem_drop (List.mem_of_mem_take hc)

/-! ## Counting lemmas -/

theorem memB_nil (x : Kmer) : memB x [] = false := by
  simp [memB]

theorem memB_cons (x m : Kmer) (L : List Kmer) :
    memB x (m :: L) = (decide (x = m) || memB x L) := by
  unfold memB
  by_cases h1 : x = m
  · simp [h1]
  · by_cases h2 : x ∈ L
    · simp [h1, h2]
    · simp [h1, h2]

theorem countP_cons_split (f : Kmer → Kmer) (m : Kmer) (L : List Kmer)
    (hm : m ∉ L) (W : List Kmer) :
    W.countP (fun w => memB (f w) (m :: L)) =
      W.countP (fun w => decide (f w = m)) + W.countP (fun w => memB (f w) L) := by
  induction W with
  | nil => simp
  | cons w W ih =>
    rw [List.countP_cons, List.countP_cons, List.countP_cons, ih, memB_cons]
    by_cases h1 : f w = m
    · have h2 : f w ∉ L := h1 ▸ hm
      have e1 : decide (f w = m) = true := decide_eq_true h1
      have e2 : memB (f w) L = false := by
        unfold memB
        exact decide_eq_false h2
      rw [e1, e2]
      simp
      omega
    · have e1 : decide (f w = m) = false := decide_eq_false h1
      rw [e1]
      by_cases h2 : f w ∈ L
      · have e2 : memB (f w) L = true := by
          unfold memB
          exact decide_eq_true h2
        rw [e2]
        simp
        omega
      · have e2 : memB (f w) L = false := by
          unfold memB
          exact decide_eq_false h2
        rw [e2]
        simp

theorem sum_map_countP (f : Kmer → Kmer) (W : List Kmer) :
    ∀ L : List Kmer, L.Nodup →
      (L.map (fun m => W.countP (fun w => decide (f w = m)))).sum =
        W.countP (fun w => memB (f w) L) := by
  intro L
  induction L with
  | nil => simp [memB_nil]
  | cons m L ih =>
    intro h
    rcases List.nodup_cons.mp h with ⟨hm, hL⟩
    rw [List.map_cons, List.sum_cons, ih hL, countP_cons_split f m L hm W]

theorem sum_map_div {β : Type} (L : List β) (g : β → ℚ) (d : ℚ) :
    (L.map (fun m => g m / d)).sum = (L.map g).sum / d := by
  induction L with
  | nil => simp
  | cons m L ih => simp [ih, add_div]

/-- Common evaluation of the signature sum: only windows whose canonical
form is one of the canonical columns contribute, and the total is divided
by the sequence length. -/
theorem sigSum_getKSig (k : Nat) (seq : List Char) (hll : seq.length ≠ 0) :
    sigSum (getKSig k seq) =
      some ((((windows k seq).countP (canonIsCol k) : ℕ) : ℚ) / (seq.length : ℚ)) := by
  unfold getKSig sigSum
  rw [if_neg hll]
  simp only [Option.map_some']
  congr 1
  rw [List.map_map]
  have hcomp : (Prod.snd ∘ fun mer => (mer, (merCount k seq mer : ℚ) / (seq.length : ℚ)))
      = fun mer => ((merCount k seq mer : ℚ) / (seq.length : ℚ)) := rfl
  rw [hcomp, sum_map_div]
  congr 1
  have hcast : (List.map (fun m => ((merCount k seq m : ℕ) : ℚ)) (makeKmerColNames k)).sum
      = (((List.map (merCount k seq) (makeKmerColNames k)).sum : ℕ) : ℚ) := by
    rw [Nat.cast_list_sum, List.map_map]
    rfl
  rw [hcast]
  congr 1
  unfold merCount canonIsCol
  exact sum_map_countP shiftLowLexi (windows k seq) _ (nodup_makeKmerColNames k)

/-- C1 (amended): for every sequence with no ambiguous bases and length at
least `k ≥ 1`, the signature entries of `getKSig` sum to
`(len(seq) - k + 1) / len(seq)` — every window is counted, but each entry
is divided by `len(seq)` rather than by the window count, so the sum is
strictly below 1 whenever `k > 1`. -/
theorem getKSig_sum (k : Nat) (seq : List Char) (hk : 1 ≤ k) (hlen : k ≤ seq.length)
    (hACGT : ∀ c ∈ seq, c ∈ baseChars) :
    sigSum (getKSig k seq) = some (((seq.length + 1 - k : ℕ) : ℚ) / (seq.length : ℚ)) := by
  have hll : seq.length ≠ 0 := by omega
  rw [sigSum_getKSig k seq hll]
  congr 2
  rw [List.countP_eq_length.mpr, windows, List.length_map, List.length_range]
  · rfl
  · intro w hw
    rcases List.mem_map.mp hw with ⟨i, hi, rfl⟩
    rw [List.mem_range] at hi
    unfold canonIsCol memB
    apply decide_eq_true
    exact shiftLowLexi_mem_makeKmerColNames k hk _ (length_windowAt k seq i hi)
      (fun c hc => hACGT c (mem_of_mem_windowAt k seq i c hc))

/-- C1 witness: the amended theorem at `k = 2`, `seq = ACGT`. -/
theorem getKSig_sum_witness :
    sigSum (getKSig 2 ['A', 'C', 'G', 'T']) =
      some ((((['A', 'C', 'G', 'T'] : List Char).length + 1 - 2 : ℕ) : ℚ) /
        ((['A', 'C', 'G', 'T'] : List Char).length : ℚ)) :=
  getKSig_sum 2 ['A', 'C', 'G', 'T'] (by decide) (by decide) (by decide)

/-- C1 counterexample: `ACGT` with `k = 2` has no ambiguous base and
length at least `k`, yet its signature sums to `3/4`, not 1 — `getKSig`
divides by `len(seq)`, not by the window count `len(seq)-k+1`. -/
theorem getKSig_sum_cx :
    (∀ c ∈ (['A', 'C', 'G', 'T'] : List Char), c ∈ baseChars) ∧
    2 ≤ (['A', 'C', 'G', 'T'] : List Char).length ∧
    sigSum (getKSig 2 ['A', 'C', 'G', 'T']) ≠ some 1 :=
  ⟨by decide, by decide, of_decide_eq_true (by with_unfolding_all rfl)⟩

/-- C9 (amended): on every nonempty input the signature engine succeeds,
and windows whose canonical form is not a canonical column (those with
malformed characters) are silently skipped: the entries sum to the number
of recognised windows divided by the length.  On the empty string the
final normalisation divides by zero and the call raises. -/
theorem getKSig_total (k : Nat) (seq : List Char) (hne : seq ≠ []) :
    (getKSig k seq).isSome = true ∧
    sigSum (getKSig k seq) =
      some ((((windows k seq).countP (canonIsCol k) : ℕ) : ℚ) / (seq.length : ℚ)) := by
  have hll : seq.length ≠ 0 := by
    simpa [List.length_eq_zero] using hne
  constructor
  · unfold getKSig
    rw [if_neg hll]
    rfl
  · exact sigSum_getKSig k seq hll

/-- C9 witness: a sequence containing an ambiguous base still yields a
signature. -/
theorem getKSig_total_witness :
    (getKSig 2 ['A', 'N']).isSome = true ∧
    sigSum (getKSig 2 ['A', 'N']) =
      some ((((windows 2 ['A', 'N']).countP (canonIsCol 2) : ℕ) : ℚ) /
        ((['A', 'N'] : List Char).length : ℚ)) :=
  getKSig_total 2 ['A', 'N'] (by decide)

/-- C9 counterexample: on the empty byte string `getKSig` does not return
a signature — the normalisation `X / ll` is a division by zero. -/
theorem getKSig_empty_cx : getKSig 4 [] = none := rfl

/-- C7: for `k = 2` the canonical column list has exactly 10 entries, each
entry is the lexicographically smaller of itself and its reverse
complement, and the list is duplicate-free and sorted strictly ascending
in the source's byte-string order. -/
theorem makeKmerColNames_k2_spec :
    (makeKmerColNames 2).length = 10 ∧
    (∀ m ∈ makeKmerColNames 2, m = shiftLowLexi m) ∧
    (makeKmerColNames 2).Nodup ∧
    List.Pairwise (fun a b => seqLt a b = true) (makeKmerColNames 2) := by decide

/-! ## Python dictionary lemmas -/

theorem dictKeys_dictInsert_of_mem {α : Type} (d : List (String × α)) (k : String) (v : α)
    (h : k ∈ dictKeys d) : dictKeys (dictInsert d k v) = dictKeys d := by
  unfold dictInsert
  have hany : d.any (fun p => decide (p.1 = k)) = true := by
    rcases List.mem_map.mp h with ⟨p, hp, rfl⟩
    exact List.any_eq_true.mpr ⟨p, hp, decide_eq_true rfl⟩
  rw [hany]
  simp only [if_true]
  unfold dictKeys
  rw [List.map_map]
  apply List.map_congr_left
  intro p _
  by_cases hpk : p.1 = k
  · simp [hpk]
  · simp [hpk]

theorem dictKeys_dictInsert_of_not_mem {α : Type} (d : List (String × α)) (k : String) (v : α)
    (h : k ∉ dictKeys d) : dictKeys (dictInsert d k v) = dictKeys d ++ [k] := by
  unfold dictInsert
  have hany : d.any (fun p => decide (p.1 = k)) = false := by
    rw [List.any_eq_false]
    intro p hp hq
    exact h (List.mem_map.mpr ⟨p, hp, of_decide_eq_true hq⟩)
  rw [hany]
  simp [dictKeys]

theorem nodup_dictKeys_dictInsert {α : Type} (d : List (String × α)) (k : String) (v : α)
    (h : (dictKeys d).Nodup) : (dictKeys (dictInsert d k v)).Nodup := by
  by_cases hk : k ∈ dictKeys d
  · rw [dictKeys_dictInsert_of_mem d k v hk]
    exact h
  · rw [dictKeys_dictInsert_of_not_mem d k v hk]
    refine List.Nodup.append h (List.nodup_singleton k) ?_
    intro a ha hb
    rw [List.mem_singleton] at hb
    subst hb
    exact hk ha

theorem parseContigsAux_nodup_keys (k : Nat) :
    ∀ (recs : List (String × List Char)) (store tmp : List (String × (List ℚ × Nat))),
      (dictKeys store).Nodup → parseContigsAux k store recs = some tmp →
      (dictKeys tmp).Nodup := by
  intro recs
  induction recs with
  | nil =>
    intro store tmp h he
    simp only [parseContigsAux] at he
    cases he
    exact h
  | cons r rs ih =>
    intro store tmp h he
    cases hks : getKSig k (pyUpper r.2) with
    | none =>
      simp only [parseContigsAux, hks] at he
      exact Option.noConfusion he
    | some sig =>
      simp only [parseContigsAux, hks] at he
      exact ih _ tmp (nodup_dictKeys_dictInsert _ _ _ h) he

/-! ## Sorting lemmas -/

theorem sortedKeys_perm {α : Type} (d : List (String × α)) :
    (sortedKeys d).Perm (dictKeys d) :=
  List.perm_insertionSort _ _

theorem sortedKeys_sorted {α : Type} (d : List (String × α)) :
    (sortedKeys d).Sorted (fun a b => a ≤ b) :=
  List.sorted_insertionSort _ _

theorem insertionSort_idem (l : List String) (h : l.Sorted (fun a b => a ≤ b)) :
    List.insertionSort (fun a b => a ≤ b) l = l :=
  List.eq_of_perm_of_sorted (List.perm_insertionSort _ l) (List.sorted_insertionSort _ l) h

theorem sorted_nodup_pairwise_lt (l : List String) (hs : l.Sorted (fun a b => a ≤ b))
    (hn : l.Nodup) : List.Pairwise (fun a b : String => a < b) l := by
  have hand : List.Pairwise (fun a b : String => a ≤ b ∧ a ≠ b) l :=
    List.Pairwise.and hs hn
  exact hand.imp (fun h => lt_of_le_of_ne h.1 h.2)

theorem map_map_id_of {α β : Type} (l : List α) (f : α → β) (g : β → α)
    (h : ∀ a, g (f a) = a) : (l.map f).map g = l := by
  induction l with
  | nil => rfl
  | cons a l ih => simp [h, ih]

theorem dictKeys_conNamesOf (tmp : List (String × (List ℚ × Nat))) :
    dictKeys (conNamesOf tmp) = sortedKeys tmp := by
  show ((sortedKeys tmp).map _).map Prod.fst = sortedKeys tmp
  exact map_map_id_of _ _ _ (fun a => rfl)

theorem sortedKeys_conNamesOf (tmp : List (String × (List ℚ × Nat))) :
    sortedKeys (conNamesOf tmp) = sortedKeys tmp := by
  unfold sortedKeys
  rw [show dictKeys (conNamesOf tmp) = sortedKeys tmp from dictKeys_conNamesOf tmp]
  exact insertionSort_idem _ (sortedKeys_sorted tmp)

/-! ## Decomposition of createDB -/

theorem createDB_eq (k : Nat) (bams : List BamFile) (recs : List (String × List Char))
    (db : DB) (h : createDB k bams recs = some db) :
    ∃ tmp, parseContigsAux k [] recs = some tmp ∧
      db = { kms := kmsTableOf tmp
             contigs := initContigs (conNamesOf tmp)
             bins := []
             coverage := bamParse bams (conNamesOf tmp)
             meta := initMeta (joinComma (bams.map (fun bf => bf.desc)))
               (bams.map (fun bf => bf.desc)).length
               (joinComma ((makeKmerColNames k).map (fun m => String.mk m)))
               k (makeKmerColNames k).length (conNamesOf tmp).length } := by
  unfold createDB at h
  cases hp : parseContigsAux k [] recs with
  | none =>
    rw [hp] at h
    simp at h
  | some tmp =>
    rw [hp] at h
    simp only [Option.map_some', Option.some_inj] at h
    exact ⟨tmp, rfl, h.symm⟩

theorem map_cid_initContigs (con : List (String × Nat)) :
    (initContigs con).map (fun r => r.cid) = sortedKeys con := by
  show ((sortedKeys con).map (fun cid =>
      ({ cid := cid, bid := 0, length := (dictFind con cid).getD 0,
         core := false } : ContigRow))).map (fun r => r.cid) = sortedKeys con
  exact map_map_id_of _ _ _ (fun a => rfl)

theorem map_fst_kmsTableOf (tmp : List (String × (List ℚ × Nat))) :
    (kmsTableOf tmp).map Prod.fst = sortedKeys tmp := by
  show ((sortedKeys tmp).map _).map Prod.fst = sortedKeys tmp
  exact map_map_id_of _ _ _ (fun a => rfl)

theorem map_fst_bamParse (bams : List BamFile) (con : List (String × Nat)) :
    (bamParse bams con).map Prod.fst = sortedKeys con := by
  show ((sortedKeys con).map _).map Prod.fst = sortedKeys con
  exact map_map_id_of _ _ _ (fun a => rfl)

/-- C2: in every database `createDB` produces, row `i` of the contigs
table, of the kms table and of the coverage table all describe the same
contig — all three tables iterate the same contig-name set sorted
ascending. -/
theorem createDB_row_alignment (k : Nat) (bams : List BamFile)
    (recs : List (String × List Char)) (db : DB) (h : createDB k bams recs = some db) :
    db.contigs.map (fun r => r.cid) = db.kms.map Prod.fst ∧
    db.contigs.map (fun r => r.cid) = db.coverage.map Prod.fst := by
  rcases createDB_eq k bams recs db h with ⟨tmp, hp, rfl⟩
  dsimp only
  rw [map_cid_initContigs, map_fst_kmsTableOf, map_fst_bamParse, sortedKeys_conNamesOf]
  exact ⟨rfl, rfl⟩

/-- C2 witness: the two-contig FASTA `{c2 : AA, c1 : AC}` with no BAMs. -/
theorem createDB_row_alignment_witness :
    exDB2.contigs.map (fun r => r.cid) = exDB2.kms.map Prod.fst ∧
    exDB2.contigs.map (fun r => r.cid) = exDB2.coverage.map Prod.fst :=
  createDB_row_alignment 2 [] [("c2", ['A', 'A']), ("c1", ['A', 'C'])] exDB2
    (of_decide_eq_true (by with_unfolding_all rfl))

/-- C6: in every database `createDB` produces, the `cid` values of the
contigs table are unique and strictly ascending. -/
theorem createDB_cids_sorted (k : Nat) (bams : List BamFile)
    (recs : List (String × List Char)) (db : DB) (h : createDB k bams recs = some db) :
    List.Pairwise (fun a b : String => a < b) (db.contigs.map (fun r => r.cid)) := by
  rcases createDB_eq k bams recs db h with ⟨tmp, hp, rfl⟩
  dsimp only
  rw [map_cid_initContigs, sortedKeys_conNamesOf]
  apply sorted_nodup_pairwise_lt _ (sortedKeys_sorted tmp)
  exact ((sortedKeys_perm tmp).nodup_iff).mpr
    (parseContigsAux_nodup_keys k recs [] tmp (by simp [dictKeys]) hp)

/-- C6 witness: the FASTA `{c2 : AA, c1 : AC}`, whose cids come out as
`c1 < c2`. -/
theorem createDB_cids_sorted_witness :
    List.Pairwise (fun a b : String => a < b) (exDB2.contigs.map (fun r => r.cid)) :=
  createDB_cids_sorted 2 [] [("c2", ['A', 'A']), ("c1", ['A', 'C'])] exDB2
    (of_decide_eq_true (by with_unfolding_all rfl))

/-! ## Meta consistency -/

theorem countCommas_append (a b : String) :
    countCommas (a ++ b) = countCommas a + countCommas b := by
  rcases a with ⟨la⟩
  rcases b with ⟨lb⟩
  show (la ++ lb).countP _ = la.countP _ + lb.countP _
  exact List.countP_append _ _ _

theorem countCommas_joinComma (l : List String) (hne : l ≠ [])
    (hfree : ∀ s ∈ l, countCommas s = 0) :
    countCommas (joinComma l) + 1 = l.length := by
  induction l with
  | nil => cases hne rfl
  | cons s ss ih =>
    cases ss with
    | nil => simp [joinComma, hfree s (by simp)]
    | cons x xs =>
      rw [show joinComma (s :: x :: xs) = s ++ "," ++ joinComma (x :: xs) from rfl]
      rw [countCommas_append, countCommas_append]
      rw [hfree s (by simp)]
      rw [show countCommas "," = 1 from by decide]
      have hih := ih (by simp) (fun t ht => hfree t (List.mem_cons_of_mem _ ht))
      simp only [List.length_cons] at hih ⊢
      omega

/-- C4 (amended): `meta.numCons` equals the row counts of the contigs, kms
and coverage tables, and `meta.numStoits` equals the number of BAM files.
`numStoits = commas(stoitColNames) + 1` holds only for a nonempty BAM set
whose column names are comma-free; for the empty BAM set `numStoits` is 0
while the comma count of the empty string plus one is 1. -/
theorem createDB_meta_consistency (k : Nat) (bams : List BamFile)
    (recs : List (String × List Char)) (db : DB) (h : createDB k bams recs = some db) :
    db.meta.numCons = db.contigs.length ∧
    db.meta.numCons = db.kms.length ∧
    db.meta.numCons = db.coverage.length ∧
    db.meta.numStoits = bams.length ∧
    (bams ≠ [] → (∀ bf ∈ bams, countCommas bf.desc = 0) →
      countCommas db.meta.stoitColNames + 1 = db.meta.numStoits) := by
  rcases createDB_eq k bams recs db h with ⟨tmp, hp, rfl⟩
  dsimp only [initMeta]
  have hcon : (conNamesOf tmp).length = (sortedKeys tmp).length := by
    simp [conNamesOf]
  have hcontigs : (initContigs (conNamesOf tmp)).length = (sortedKeys tmp).length := by
    rw [show (initContigs (conNamesOf tmp)).length
        = ((initContigs (conNamesOf tmp)).map (fun r => r.cid)).length from
      (List.length_map _ _).symm]
    rw [map_cid_initContigs, sortedKeys_conNamesOf]
  have hkms : (kmsTableOf tmp).length = (sortedKeys tmp).length := by
    simp [kmsTableOf]
  have hcov : (bamParse bams (conNamesOf tmp)).length = (sortedKeys tmp).length := by
    rw [show (bamParse bams (conNamesOf tmp)).length
        = ((bamParse bams (conNamesOf tmp)).map Prod.fst).length from
      (List.length_map _ _).symm]
    rw [map_fst_bamParse, sortedKeys_conNamesOf]
  refine ⟨by rw [hcon, hcontigs], by rw [hcon, hkms], by rw [hcon, hcov],
    by simp, ?_⟩
  intro hne hfree
  rw [List.length_map]
  have hne' : bams.map (fun bf => bf.desc) ≠ [] := by
    simpa using hne
  have hfree' : ∀ s ∈ bams.map (fun bf => bf.desc), countCommas s = 0 := by
    intro s hs
    rcases List.mem_map.mp hs with ⟨bf, hbf, rfl⟩
    exact hfree bf hbf
  have := countCommas_joinComma (bams.map (fun bf => bf.desc)) hne' hfree'
  rw [List.length_map] at this
  exact this

/-- C4 witness: one BAM named `a` and an empty FASTA. -/
theorem createDB_meta_consistency_witness :
    exDB4.meta.numCons = exDB4.contigs.length ∧
    exDB4.meta.numCons = exDB4.kms.length ∧
    exDB4.meta.numCons = exDB4.coverage.length ∧
    exDB4.meta.numStoits = ([(⟨"a", []⟩ : BamFile)] : List BamFile).length ∧
    (([(⟨"a", []⟩ : BamFile)] : List BamFile) ≠ [] →
      (∀ bf ∈ ([(⟨"a", []⟩ : BamFile)] : List BamFile), countCommas bf.desc = 0) →
      countCommas exDB4.meta.stoitColNames + 1 = exDB4.meta.numStoits) :=
  createDB_meta_consistency 2 [⟨"a", []⟩] [] exDB4
    (of_decide_eq_true (by with_unfolding_all rfl))

/-- C4 counterexample: with an empty BAM set `createDB` writes
`numStoits = 0` and `stoitColNames = ""`, whose comma count plus one is 1,
so `numStoits = commas + 1` fails exactly in the empty case the claim
includes. -/
theorem createDB_meta_consistency_cx :
    createDB 2 [] [] = some exDB0 ∧
    countCommas exDB0.meta.stoitColNames + 1 ≠ exDB0.meta.numStoits :=
  ⟨of_decide_eq_true (by with_unfolding_all rfl), by decide⟩

/-! ## List.set / getD lemmas -/

theorem getD_set_self {α : Type} [Inhabited α] (l : List α) (i : Nat) (a : α)
    (h : i < l.length) : (l.set i a).getD i default = a := by
  induction l generalizing i with
  | nil => simp at h
  | cons b l ih =>
    cases i with
    | zero => rfl
    | succ i => exact ih i (by simpa using h)

theorem getD_set_ne {α : Type} [Inhabited α] (l : List α) (i j : Nat) (a : α)
    (h : i ≠ j) : (l.set i a).getD j default = l.getD j default := by
  induction l generalizing i j with
  | nil => rfl
  | cons b l ih =>
    cases i with
    | zero =>
      cases j with
      | zero => cases h rfl
      | succ j => rfl
    | succ i =>
      cases j with
      | zero => rfl
      | succ j => exact ih i j (fun e => h (by rw [e]))

/-! ## setBins -/

/-- C5: after `setBins(updates)` (`setBinAssignments` in the spec) with
distinct in-range row numbers, reading `bins` at each updated index
returns the new bid, every row not in the update map is unchanged, and
every field other than `bid` (`cid`, `length`, `core`) of every row is
unchanged; the row count is also unchanged. -/
theorem setBins_spec (rows : List ContigRow) (updates : List (Nat × Int))
    (hnd : (updates.map Prod.fst).Nodup)
    (hrange : ∀ u ∈ updates, u.1 < rows.length) :
    (setBins rows updates).length = rows.length ∧
    (∀ u ∈ updates, getBins (setBins rows updates) [u.1] = [u.2]) ∧
    (∀ i, i ∉ updates.map Prod.fst →
      (setBins rows updates).getD i default = rows.getD i default) ∧
    (∀ i, ((setBins rows updates).getD i default).cid = (rows.getD i default).cid ∧
      ((setBins rows updates).getD i default).length = (rows.getD i default).length ∧
      ((setBins rows updates).getD i default).core = (rows.getD i default).core) := by
  induction updates generalizing rows with
  | nil =>
    exact ⟨rfl, by simp, fun i _ => rfl, fun i => ⟨rfl, rfl, rfl⟩⟩
  | cons u rest ih =>
    have hu : u.1 < rows.length := hrange u (by simp)
    have hnd' : (rest.map Prod.fst).Nodup := (List.nodup_cons.mp hnd).2
    have hufst : u.1 ∉ rest.map Prod.fst := (List.nodup_cons.mp hnd).1
    have hlen' : (rows.set u.1 { rows.getD u.1 default with bid := u.2 }).length
        = rows.length := by simp
    have hrange' : ∀ v ∈ rest,
        v.1 < (rows.set u.1 { rows.getD u.1 default with bid := u.2 }).length := by
      intro v hv
      rw [hlen']
      exact hrange v (List.mem_cons_of_mem _ hv)
    obtain ⟨ihlen, ihget, ihframe, ihfields⟩ :=
      ih (rows.set u.1 { rows.getD u.1 default with bid := u.2 }) hnd' hrange'
    have hstep : setBins rows (u :: rest) =
        setBins (rows.set u.1 { rows.getD u.1 default with bid := u.2 }) rest := rfl
    refine ⟨?_, ?_, ?_, ?_⟩
    · rw [hstep, ihlen, hlen']
    · intro v hv
      rcases List.mem_cons.mp hv with rfl | hv'
      · rw [hstep]
        unfold getBins
        rw [List.map_singleton]
        rw [ihframe v.1 hufst, getD_set_self rows v.1 _ hu]
      · rw [hstep]
        exact ihget v hv'
    · intro i hi
      rw [List.map_cons, List.mem_cons] at hi
      push_neg at hi
      rw [hstep, ihframe i hi.2, getD_set_ne rows u.1 i _ (fun e => hi.1 e.symm)]
    · intro i
      obtain ⟨hc, hl, hco⟩ := ihfields i
      rw [hstep] at *
      by_cases hiu : i = u.1
      · have hrow : (rows.set u.1 { rows.getD u.1 default with bid := u.2 }).getD i default
            = { rows.getD u.1 default with bid := u.2 } := by
          rw [hiu]
          exact getD_set_self rows u.1 _ hu
        exact ⟨by rw [hc, hrow, hiu], by rw [hl, hrow, hiu], by rw [hco, hrow, hiu]⟩
      · have hrow : (rows.set u.1 { rows.getD u.1 default with bid := u.2 }).getD i default
            = rows.getD i default := getD_set_ne rows u.1 i _ (fun e => hiu e.symm)
        exact ⟨by rw [hc, hrow], by rw [hl, hrow], by rw [hco, hrow]⟩

/-- C5 witness: a two-row table with row 1 moved into bin 7. -/
theorem setBins_spec_witness :
    (setBins [⟨"a", 0, 3, false⟩, ⟨"b", 0, 4, false⟩] [(1, 7)]).length =
      ([⟨"a", 0, 3, false⟩, ⟨"b", 0, 4, false⟩] : List ContigRow).length ∧
    (∀ u ∈ ([(1, 7)] : List (Nat × Int)),
      getBins (setBins [⟨"a", 0, 3, false⟩, ⟨"b", 0, 4, false⟩] [(1, 7)]) [u.1] = [u.2]) ∧
    (∀ i, i ∉ ([(1, 7)] : List (Nat × Int)).map Prod.fst →
      (setBins [⟨"a", 0, 3, false⟩, ⟨"b", 0, 4, false⟩] [(1, 7)]).getD i default =
        ([⟨"a", 0, 3, false⟩, ⟨"b", 0, 4, false⟩] : List ContigRow).getD i default) ∧
    (∀ i, ((setBins [⟨"a", 0, 3, false⟩, ⟨"b", 0, 4, false⟩] [(1, 7)]).getD i default).cid =
        (([⟨"a", 0, 3, false⟩, ⟨"b", 0, 4, false⟩] : List ContigRow).getD i default).cid ∧
      ((setBins [⟨"a", 0, 3, false⟩, ⟨"b", 0, 4, false⟩] [(1, 7)]).getD i default).length =
        (([⟨"a", 0, 3, false⟩, ⟨"b", 0, 4, false⟩] : List ContigRow).getD i default).length ∧
      ((setBins [⟨"a", 0, 3, false⟩, ⟨"b", 0, 4, false⟩] [(1, 7)]).getD i default).core =
        (([⟨"a", 0, 3, false⟩, ⟨"b", 0, 4, false⟩] : List ContigRow).getD i default).core) :=
  setBins_spec [⟨"a", 0, 3, false⟩, ⟨"b", 0, 4, false⟩] [(1, 7)] (by decide) (by decide)

/-! ## nukeBins -/

theorem dictKeys_foldl_insert {α : Type} (ps : List (String × α)) :
    ∀ d : List (String × α), (dictKeys d ++ ps.map Prod.fst).Nodup →
      dictKeys (ps.foldl (fun d p => dictInsert d p.1 p.2) d) =
        dictKeys d ++ ps.map Prod.fst := by
  induction ps with
  | nil =>
    intro d _
    simp
  | cons p ps ih =>
    intro d h
    rw [List.foldl_cons]
    have hp1 : p.1 ∉ dictKeys d := by
      intro hmem
      exact (List.disjoint_of_nodup_append h) hmem (by simp)
    have hkeys : dictKeys (dictInsert d p.1 p.2) = dictKeys d ++ [p.1] :=
      dictKeys_dictInsert_of_not_mem d p.1 p.2 hp1
    have hpre : (dictKeys (dictInsert d p.1 p.2) ++ ps.map Prod.fst).Nodup := by
      rw [hkeys, List.append_assoc, List.singleton_append]
      simpa using h
    rw [ih (dictInsert d p.1 p.2) hpre, hkeys, List.append_assoc, List.singleton_append]
    simp

theorem dictKeys_pyDictOfPairs {α : Type} (ps : List (String × α))
    (h : (ps.map Prod.fst).Nodup) : dictKeys (pyDictOfPairs ps) = ps.map Prod.fst := by
  unfold pyDictOfPairs
  have := dictKeys_foldl_insert ps [] (by simpa [dictKeys] using h)
  simpa [dictKeys] using this

theorem map_fst_cid_pairs (l : List ContigRow) :
    (l.map (fun r => (r.cid, r.length))).map Prod.fst = l.map (fun r => r.cid) := by
  induction l with
  | nil => rfl
  | cons a l ih => simp [ih]

/-- C3 (amended): on a database whose cids are distinct and nonempty (as
`createDB` guarantees), `nukeBins` resets every `bid` to 0, empties the
bins table and preserves the contigs row count — but it leaves the whole
`meta` row, `numBins` included, untouched rather than setting
`meta.numBins = 0`. -/
theorem nukeBins_spec (db : DB) (hnd : (db.contigs.map (fun r => r.cid)).Nodup)
    (hne : ∀ r ∈ db.contigs, r.cid ≠ "") :
    (∀ r ∈ (nukeBins db).contigs, r.bid = 0) ∧
    (nukeBins db).bins = [] ∧
    (nukeBins db).contigs.length = db.contigs.length ∧
    (nukeBins db).meta = db.meta := by
  refine ⟨?_, rfl, ?_, rfl⟩
  · intro r hr
    have : r ∈ initContigs (pyDictOfPairs
        ((db.contigs.filter (fun r => decide (r.cid ≠ ""))).map (fun r => (r.cid, r.length)))) := hr
    rcases List.mem_map.mp this with ⟨cid, _, rfl⟩
    rfl
  · have hfilter : db.contigs.filter (fun r => decide (r.cid ≠ "")) = db.contigs :=
      List.filter_eq_self.mpr (fun r hr => decide_eq_true (hne r hr))
    have hfst : ((db.contigs.map (fun r => (r.cid, r.length))).map Prod.fst)
        = db.contigs.map (fun r => r.cid) :=
      map_fst_cid_pairs db.contigs
    show (initContigs (pyDictOfPairs
        ((db.contigs.filter (fun r => decide (r.cid ≠ ""))).map
          (fun r => (r.cid, r.length))))).length = db.contigs.length
    rw [hfilter]
    have hkeys : dictKeys (pyDictOfPairs (db.contigs.map (fun r => (r.cid, r.length))))
        = (db.contigs.map (fun r => (r.cid, r.length))).map Prod.fst :=
      dictKeys_pyDictOfPairs _ (by rw [hfst]; exact hnd)
    have hlen : (initContigs (pyDictOfPairs (db.contigs.map (fun r => (r.cid, r.length))))).length
        = (sortedKeys (pyDictOfPairs (db.contigs.map (fun r => (r.cid, r.length))))).length := by
      rw [show (initContigs (pyDictOfPairs (db.contigs.map (fun r => (r.cid, r.length))))).length
          = ((initContigs (pyDictOfPairs (db.contigs.map (fun r => (r.cid, r.length))))).map
            (fun r => r.cid)).length from (List.length_map _ _).symm]
      rw [map_cid_initContigs]
    rw [hlen, (sortedKeys_perm _).length_eq, hkeys, hfst, List.length_map]

/-- C3 witness: the amended theorem on a database with one binned
contig. -/
theorem nukeBins_spec_witness :
    (∀ r ∈ (nukeBins exDB3).contigs, r.bid = 0) ∧
    (nukeBins exDB3).bins = [] ∧
    (nukeBins exDB3).contigs.length = exDB3.contigs.length ∧
    (nukeBins exDB3).meta = exDB3.meta :=
  nukeBins_spec exDB3 (by decide) (by decide)

/-- C3 counterexample: `nukeBins` never touches the `meta` table, so on a
database with `meta.numBins = 1` the claimed `meta.numBins = 0` fails. -/
theorem nukeBins_cx : (nukeBins exDB3).meta.numBins ≠ 0 := by decide

/-! ## Conditional row selection -/

theorem snd_mem_of_mem_enumFrom {α : Type} (q : Nat × α) :
    ∀ (l : List α) (n : Nat), q ∈ l.enumFrom n → q.2 ∈ l := by
  intro l
  induction l with
  | nil =>
    intro n h
    simp at h
  | cons a l ih =>
    intro n h
    rw [List.enumFrom_cons] at h
    rcases List.mem_cons.mp h with rfl | h'
    · exact List.mem_cons_self _ _
    · exact List.mem_cons_of_mem _ (ih (n + 1) h')

/-- C10: with the empty predicate, `getConditionalIndicies` substitutes
`cid != ""` and — every row of a well-formed contigs table having a
nonempty cid — returns the indices of all rows, in order. -/
theorem getConditionalIndicies_empty (rows : List ContigRow)
    (h : ∀ r ∈ rows, r.cid ≠ "") :
    getConditionalIndicies rows ContigPred.empty = List.range rows.length := by
  simp only [getConditionalIndicies]
  rw [if_pos trivial]
  rw [List.filter_eq_self.mpr ?_]
  · exact List.enum_map_fst rows
  · intro p hp
    have hmem : p.2 ∈ rows := snd_mem_of_mem_enumFrom p rows 0 hp
    exact decide_eq_true (h p.2 hmem)

/-- C10 witness: a two-row table. -/
theorem getConditionalIndicies_empty_witness :
    getConditionalIndicies [⟨"a", 0, 1, false⟩, ⟨"b", 0, 2, false⟩] ContigPred.empty =
      List.range ([⟨"a", 0, 1, false⟩, ⟨"b", 0, 2, false⟩] : List ContigRow).length :=
  getConditionalIndicies_empty _ (by decide)

/-! ## BAM coverage lemmas -/

theorem parseBam_cons (s : String → Nat → ℚ) (e : BamRef) (refs : List BamRef)
    (j : Nat) (keys : List String) :
    parseBam s (e :: refs) j keys =
      parseBam (if memBS e.ref keys then
        updStorage s e.ref j ((e.reads : ℚ) / (e.length : ℚ)) else s) refs j keys := rfl

theorem parseBam_other_col (refs : List BamRef) (j : Nat) (keys : List String)
    (c : String) (i : Nat) (hij : i ≠ j) :
    ∀ s, parseBam s refs j keys c i = s c i := by
  induction refs with
  | nil => intro s; rfl
  | cons e refs ih =>
    intro s
    rw [parseBam_cons, ih]
    by_cases hm : memBS e.ref keys = true
    · rw [if_pos hm]
      unfold updStorage
      rw [if_neg (fun hand => hij hand.2)]
    · rw [if_neg hm]

theorem parseBam_zero_preserved (refs : List BamRef) (bamCount : Nat) (keys : List String)
    (c : String) (j : Nat) (hz : ∀ e ∈ refs, e.ref = c → e.reads = 0) :
    ∀ s, s c j = 0 → parseBam s refs bamCount keys c j = 0 := by
  induction refs with
  | nil =>
    intro s h
    exact h
  | cons e refs ih =>
    intro s h
    rw [parseBam_cons]
    apply ih (fun e' he' => hz e' (List.mem_cons_of_mem _ he'))
    by_cases hm : memBS e.ref keys = true
    · rw [if_pos hm]
      unfold updStorage
      by_cases hcj : c = e.ref ∧ j = bamCount
      · rw [if_pos hcj, hz e (List.mem_cons_self _ _) hcj.1.symm]
        simp
      · rw [if_neg hcj]
        exact h
    · rw [if_neg hm]
      exact h

theorem bamFoldAux_zero (keys : List String) (c : String) (j : Nat) :
    ∀ (bams : List BamFile) (j0 : Nat) (s : String → Nat → ℚ),
      s c j = 0 →
      (j < j0 ∨ ∀ e ∈ (bams.getD (j - j0) default).refs, e.ref = c → e.reads = 0) →
      bamFoldAux keys s j0 bams c j = 0 := by
  intro bams
  induction bams with
  | nil =>
    intro j0 s h _
    exact h
  | cons bf bams ih =>
    intro j0 s h hcase
    show bamFoldAux keys (parseBam s bf.refs j0 keys) (j0 + 1) bams c j = 0
    rcases hcase with hlt | hz
    · have hstep : parseBam s bf.refs j0 keys c j = 0 := by
        rw [parseBam_other_col bf.refs j0 keys c j (by omega) s]
        exact h
      exact ih (j0 + 1) _ hstep (Or.inl (by omega))
    · by_cases hj : j = j0
      · have hzbf : ∀ e ∈ bf.refs, e.ref = c → e.reads = 0 := by
          have : j - j0 = 0 := by omega
          rw [this] at hz
          simpa using hz
        have hstep : parseBam s bf.refs j0 keys c j = 0 :=
          parseBam_zero_preserved bf.refs j0 keys c j hzbf s h
        exact ih (j0 + 1) _ hstep (Or.inl (by omega))
      · have hstep : parseBam s bf.refs j0 keys c j = 0 := by
          rw [parseBam_other_col bf.refs j0 keys c j hj s]
          exact h
        by_cases hlt : j < j0
        · exact ih (j0 + 1) _ hstep (Or.inl (by omega))
        · refine ih (j0 + 1) _ hstep (Or.inr ?_)
          have harith : j - j0 = (j - (j0 + 1)) + 1 := by omega
          rw [harith] at hz
          simpa using hz

theorem getD_map_range (n j : Nat) (f : Nat → ℚ) (h : j < n) :
    ((List.range n).map f).getD j 0 = f j := by
  rw [List.getD_eq_getElem _ _ (by simpa using h)]
  simp

theorem parseBam_filter (keys : List String) (refs : List BamRef) (j : Nat) :
    ∀ s, parseBam s (refs.filter (fun e => memBS e.ref keys)) j keys =
      parseBam s refs j keys := by
  induction refs with
  | nil => intro s; rfl
  | cons e refs ih =>
    intro s
    rw [parseBam_cons]
    by_cases hm : memBS e.ref keys = true
    · rw [List.filter_cons, if_pos hm, parseBam_cons, if_pos hm]
      exact ih _
    · rw [List.filter_cons, if_neg hm, if_neg hm]
      exact ih _

theorem bamFoldAux_filter (keys : List String) :
    ∀ (bams : List BamFile) (j0 : Nat) (s : String → Nat → ℚ),
      bamFoldAux keys s j0 (bams.map (fun bf =>
        BamFile.mk bf.desc (bf.refs.filter (fun e => memBS e.ref keys)))) =
      bamFoldAux keys s j0 bams := by
  intro bams
  induction bams with
  | nil => intro j0 s; rfl
  | cons bf bams ih =>
    intro j0 s
    show bamFoldAux keys (parseBam s (bf.refs.filter (fun e => memBS e.ref keys)) j0 keys)
        (j0 + 1) (bams.map (fun bf =>
          BamFile.mk bf.desc (bf.refs.filter (fun e => memBS e.ref keys))))
      = bamFoldAux keys (parseBam s bf.refs j0 keys) (j0 + 1) bams
    rw [parseBam_filter keys bf.refs j0 s]
    exact ih (j0 + 1) _

theorem bamParse_filter (bams : List BamFile) (con : List (String × Nat)) :
    bamParse (bams.map (fun bf => BamFile.mk bf.desc
      (bf.refs.filter (fun e => memBS e.ref (dictKeys con))))) con = bamParse bams con := by
  simp only [bamParse]
  rw [bamFoldAux_filter (dictKeys con) bams 0 zeroStorage, List.length_map]

/-- C8: a BAM reference absent from the contig set contributes nothing to
the coverage table (filtering such references away leaves the table
unchanged), and a contig with no alignments in a given BAM — every entry
of that BAM naming it counts zero reads — has coverage 0.0 in that BAM's
column; a contig aligned in no BAM has 0.0 in every column.  The
positivity hypothesis on reference lengths restricts the statement to
inputs on which the Python float division cannot raise. -/
theorem bamParse_coverage (bams : List BamFile) (con : List (String × Nat)) (c : String)
    (j : Nat) (p : String × List ℚ)
    (_hpos : ∀ bf ∈ bams, ∀ e ∈ bf.refs, 0 < e.length)
    (hj : j < bams.length)
    (hno : ∀ e ∈ (bams.getD j default).refs, e.ref = c → e.reads = 0)
    (hp : p ∈ bamParse bams con) (hpc : p.1 = c) :
    bamParse (bams.map (fun bf => BamFile.mk bf.desc
      (bf.refs.filter (fun e => memBS e.ref (dictKeys con))))) con = bamParse bams con ∧
    p.2.getD j 0 = 0 ∧
    ((∀ bf ∈ bams, ∀ e ∈ bf.refs, e.ref = c → e.reads = 0) →
      ∀ i, i < bams.length → p.2.getD i 0 = 0) := by
  simp only [bamParse] at hp
  rcases List.mem_map.mp hp with ⟨cid, _hcid, rfl⟩
  have hcc : cid = c := hpc
  subst hcc
  refine ⟨bamParse_filter bams con, ?_, ?_⟩
  · show ((List.range bams.length).map
      (fun j => bamFoldAux (dictKeys con) zeroStorage 0 bams cid j)).getD j 0 = 0
    rw [getD_map_range _ _ _ hj]
    refine bamFoldAux_zero (dictKeys con) cid j bams 0 zeroStorage rfl (Or.inr ?_)
    simpa using hno
  · intro hall i hi
    show ((List.range bams.length).map
      (fun j => bamFoldAux (dictKeys con) zeroStorage 0 bams cid j)).getD i 0 = 0
    rw [getD_map_range _ _ _ hi]
    refine bamFoldAux_zero (dictKeys con) cid i bams 0 zeroStorage rfl (Or.inr ?_)
    have hbmem : bams.getD (i - 0) default ∈ bams := by
      rw [Nat.sub_zero, List.getD_eq_getElem _ _ hi]
      exact List.getElem_mem _
    exact fun e he hec => hall _ hbmem e he hec

/-- C8 witness: one BAM holding a zero-read alignment record for `c1` and
a foreign reference `zz`; the coverage row for `c1` is all zeros and
dropping `zz` changes nothing. -/
theorem bamParse_coverage_witness :
    bamParse (exBams.map (fun bf => BamFile.mk bf.desc
      (bf.refs.filter (fun e => memBS e.ref (dictKeys exCon))))) exCon =
        bamParse exBams exCon ∧
    (("c1", [(0 : ℚ)]) : String × List ℚ).2.getD 0 0 = 0 ∧
    ((∀ bf ∈ exBams, ∀ e ∈ bf.refs, e.ref = "c1" → e.reads = 0) →
      ∀ i, i < exBams.length → (("c1", [(0 : ℚ)]) : String × List ℚ).2.getD i 0 = 0) :=
  bamParse_coverage exBams exCon "c1" 0 ("c1", [0])
    (by decide) (by decide) (by decide)
    (of_decide_eq_true (by with_unfolding_all rfl)) rfl

end GroopM
